import Mathlib

/-! The build script `build.js` of elm-feather-icon.

A shallow embedding of the eight-line script

```
const feather = require('feather-icons');

require('./source-builder.js')
    .Headless
    .worker(Object.keys(feather.icons).map(x => ([ x, feather.icons[x]])))
    .ports
    .output
    .subscribe(x => console.log(x));
```

The script uses three host operations on the icon mapping and the stream:
`Object.keys`, the property read `feather.icons[x]`, and
`subscribe`/`console.log`.  They are embedded here for ordinary objects with
data properties: own properties are kept in creation order, `Object.keys`
follows the ECMAScript own-property-key order (array indices first, ascending,
then the other strings in creation order) and keeps the enumerable string keys,
and a property read walks the prototype chain.  The two collaborators that are
not part of the repository's source, the icon library and the source-builder
worker, are parameters of the script.
-/

namespace ElmFeatherIcon

/-! ## Values and ordinary objects -/

/-- A property key of a JavaScript object: a string or a symbol. -/
inductive PropertyKey where
  | str (s : String)
  | sym (id : Nat)
  deriving DecidableEq

/-- A value read from the icon mapping: `undefined`, or an icon definition the
script never looks into. -/
inductive JSValue (δ : Type) where
  | undefined
  | defn (d : δ)
  deriving DecidableEq

/-- A data property: key, value and the enumerable attribute. -/
structure Property (δ : Type) where
  key : PropertyKey
  value : JSValue δ
  enumerable : Bool
  deriving DecidableEq

/-- An ordinary object: its own properties in creation order, and the own
properties of each object on its prototype chain, nearest prototype first. -/
structure JSObject (δ : Type) where
  own : List (Property δ)
  protoChain : List (List (Property δ))
  deriving DecidableEq

/-- An object has at most one own property per key. -/
def JSObject.WellFormed {δ : Type} (o : JSObject δ) : Prop :=
  (o.own.map Property.key).Nodup

instance {δ : Type} (o : JSObject δ) : Decidable o.WellFormed :=
  inferInstanceAs (Decidable (o.own.map Property.key).Nodup)

/-- Numeric value of a decimal digit character. -/
def digitValue (c : Char) : Nat := c.toNat - 48

/-- Numeric value of a string of decimal digits. -/
def digitsValue (cs : List Char) : Nat :=
  cs.foldl (fun n c => 10 * n + digitValue c) 0

/-- The array index a string key denotes, if it is one: a canonical decimal
numeral (no leading zero, except "0" itself) whose value is below 2^32 - 1. -/
def arrayIndex? (s : String) : Option Nat :=
  match s.data with
  | [] => none
  | c :: cs =>
    if (c :: cs).all Char.isDigit && (c != '0' || cs.isEmpty)
        && decide (digitsValue (c :: cs) < 2 ^ 32 - 1) then
      some (digitsValue (c :: cs))
    else none

/-- The array index of a property key, if it is a string that denotes one. -/
def PropertyKey.index? : PropertyKey → Option Nat
  | .str s => arrayIndex? s
  | .sym _ => none

/-- The key is a string that denotes an array index. -/
def PropertyKey.isIndex (k : PropertyKey) : Bool := k.index?.isSome

/-- The key is a string that does not denote an array index. -/
def PropertyKey.isPlainString : PropertyKey → Bool
  | .str s => (arrayIndex? s).isNone
  | .sym _ => false

/-- The key is a symbol. -/
def PropertyKey.isSymbol : PropertyKey → Bool
  | .str _ => false
  | .sym _ => true

/-- Ascending numeric order on array-index keys. -/
def indexLE (a b : PropertyKey) : Prop := a.index?.getD 0 ≤ b.index?.getD 0

instance : DecidableRel indexLE := fun a b =>
  inferInstanceAs (Decidable (a.index?.getD 0 ≤ b.index?.getD 0))

/-- The own property keys of an ordinary object in the order of
`[[OwnPropertyKeys]]`: array indices in ascending numeric order, then the other
string keys in creation order, then the symbols in creation order. -/
def ownPropertyKeys {δ : Type} (o : JSObject δ) : List PropertyKey :=
  let ks := o.own.map Property.key
  (ks.filter PropertyKey.isIndex).insertionSort indexLE
    ++ ks.filter PropertyKey.isPlainString
    ++ ks.filter PropertyKey.isSymbol

/-- The own property with the given key (`[[GetOwnProperty]]`). -/
def getOwnProperty {δ : Type} (o : JSObject δ) (k : PropertyKey) : Option (Property δ) :=
  o.own.find? (fun p => p.key == k)

/-- `Object.keys(o)`: the own property keys, in own-property-key order, that are
strings and whose own property is enumerable. -/
def Object.keys {δ : Type} (o : JSObject δ) : List String :=
  (ownPropertyKeys o).filterMap fun k =>
    match k with
    | .str s =>
      match getOwnProperty o k with
      | some p => if p.enumerable then some s else none
      | none => none
    | .sym _ => none

/-- The name a property contributes to the enumeration: its key, when the key
is a string and the property is enumerable. -/
def Property.enumerableName? {δ : Type} (p : Property δ) : Option String :=
  match p.key with
  | .str s => if p.enumerable then some s else none
  | .sym _ => none

/-- The own enumerable string keys of an object, in creation order. -/
def ownEnumerableNames {δ : Type} (o : JSObject δ) : List String :=
  o.own.filterMap Property.enumerableName?

/-- The value of the first property with key `k` in a property table. -/
def lookupProperty {δ : Type} (ps : List (Property δ)) (k : PropertyKey) : Option (JSValue δ) :=
  (ps.find? (fun p => p.key == k)).map Property.value

/-- The property read `o[k]` (`[[Get]]`): the own property if there is one,
else the first one found along the prototype chain, else `undefined`. -/
def JSObject.get {δ : Type} (o : JSObject δ) (k : PropertyKey) : JSValue δ :=
  match (o.own :: o.protoChain).findSome? (fun ps => lookupProperty ps k) with
  | some v => v
  | none => .undefined

/-- An icon entry: the two-element array `[x, feather.icons[x]]`. -/
abbrev IconEntry (δ : Type) := String × JSValue δ

/-- The argument expression of the worker call:
`Object.keys(icons).map(x => ([ x, icons[x]]))`. -/
def iconEntries {δ : Type} (icons : JSObject δ) : List (IconEntry δ) :=
  (Object.keys icons).map fun x => (x, icons.get (.str x))

/-- Creating the data property `name` with value `v` on an object, as an object
literal or `JSON.parse` does for each member: a name that is already present
has its value overwritten and keeps its place, a new name is added last, as an
enumerable property. -/
def JSObject.define {δ : Type} (o : JSObject δ) (name : String) (v : JSValue δ) : JSObject δ :=
  if o.own.any (fun p => p.key == .str name) then
    { o with own := o.own.map fun p => if p.key == .str name then { p with value := v } else p }
  else
    { o with own := o.own ++ [⟨.str name, v, true⟩] }

/-- The object obtained from a fresh object with the given prototype chain by
creating the listed properties one after another, in list order. -/
def JSObject.ofInsertions {δ : Type} (protoChain : List (List (Property δ)))
    (kvs : List (String × JSValue δ)) : JSObject δ :=
  kvs.foldl (fun o kv => o.define kv.1 kv.2) ⟨[], protoChain⟩

/-- Ascending numeric order on names that denote array indices. -/
def nameIndexLE (a b : String) : Prop := (arrayIndex? a).getD 0 ≤ (arrayIndex? b).getD 0

instance : DecidableRel nameIndexLE := fun a b =>
  inferInstanceAs (Decidable ((arrayIndex? a).getD 0 ≤ (arrayIndex? b).getD 0))

/-- The order in which a list of inserted names is enumerated: the names that
denote array indices first, in ascending numeric order, then the other names in
the order of the list. -/
def enumerationOrder (names : List String) : List String :=
  (names.filter fun n => (arrayIndex? n).isSome).insertionSort nameIndexLE
    ++ names.filter fun n => (arrayIndex? n).isNone

/-- The object with the same keys, attributes and prototype chain, each stored
value replaced by its image under `f`. -/
def JSObject.mapValues {δ γ : Type} (f : JSValue δ → JSValue γ) (o : JSObject δ) : JSObject γ :=
  ⟨o.own.map fun p => ⟨p.key, f p.value, p.enumerable⟩,
   o.protoChain.map fun ps => ps.map fun p => ⟨p.key, f p.value, p.enumerable⟩⟩

/-! ## The collaborators and the script -/

/-- A thrown JavaScript error. -/
structure JSError where
  message : String
  deriving DecidableEq

/-- The icon library module: `feather.icons` is the icon mapping. -/
structure Feather (δ : Type) where
  icons : JSObject δ

/-- An output port: the events it delivers, in delivery order, to a listener
subscribed to it. -/
structure Port (ε : Type) where
  events : List ε

/-- The `ports` object of a running worker. -/
structure Ports (ε : Type) where
  output : Port ε

/-- The handle returned by `Headless.worker(...)`. -/
structure WorkerHandle (ε : Type) where
  ports : Ports ε

/-- The entry point `Headless.worker`: called with the entry list in some state
of the source-builder module, it leaves the module in a new state and either
throws or returns a handle. -/
abbrev Worker (σ δ ε : Type) := σ → List (IconEntry δ) → σ × Except JSError (WorkerHandle ε)

/-- The `Headless` object of the source-builder module. -/
structure HeadlessModule (σ δ ε : Type) where
  worker : Worker σ δ ε

/-- The source-builder module. -/
structure SourceBuilder (σ δ ε : Type) where
  Headless : HeadlessModule σ δ ε

/-- What the script does that is visible from outside. -/
inductive Effect (δ : Type) where
  | workerCall (input : List (IconEntry δ))
  | subscribed
  | logged (line : String)
  deriving DecidableEq

/-- How the script ends: it ran to the end, or an error propagated uncaught. -/
inductive Outcome where
  | completed
  | uncaught (e : JSError)
  deriving DecidableEq

/-- The result of one run: the outcome, the effects in the order they happened,
and the state the source-builder module is left in. -/
structure Run (σ δ : Type) where
  outcome : Outcome
  trace : List (Effect δ)
  workerState : σ

/-- `console.log(x)`: one write to the sink, of the host's text for `x`. -/
def console.log {δ ε : Type} (format : ε → String) (x : ε) (trace : List (Effect δ)) :
    List (Effect δ) :=
  trace ++ [.logged (format x)]

/-- `port.subscribe(listener)`: registers the listener, which is then called
once for each event the port delivers, in delivery order. -/
def Port.subscribe {δ ε : Type} (port : Port ε)
    (listener : ε → List (Effect δ) → List (Effect δ)) (trace : List (Effect δ)) :
    List (Effect δ) :=
  port.events.foldl (fun t x => listener x t) (trace ++ [.subscribed])

/-- The script `build.js`.  `requireFeather` and `requireSourceBuilder` are the
results of the two `require` calls, `format` is the host's text for a logged
value, and `s` is the state of the source-builder module before the run. -/
def build {σ δ ε : Type} (requireFeather : Except JSError (Feather δ))
    (requireSourceBuilder : Except JSError (SourceBuilder σ δ ε))
    (format : ε → String) (s : σ) : Run σ δ :=
  match requireFeather with
  | .error e => ⟨.uncaught e, [], s⟩
  | .ok feather =>
    match requireSourceBuilder with
    | .error e => ⟨.uncaught e, [], s⟩
    | .ok sourceBuilder =>
      let worker := sourceBuilder.Headless.worker
      let input := (Object.keys feather.icons).map fun x => (x, feather.icons.get (.str x))
      match worker s input with
      | (s', .error e) => ⟨.uncaught e, [.workerCall input], s'⟩
      | (s', .ok handle) =>
        ⟨.completed,
         handle.ports.output.subscribe (fun x => console.log format x) [.workerCall input], s'⟩

/-- The lines written to the sink, in the order written. -/
def linesOf {δ : Type} (trace : List (Effect δ)) : List String :=
  trace.filterMap fun
    | .logged line => some line
    | _ => none

/-- The arguments of the calls of `Headless.worker`, in call order. -/
def workerCallsOf {δ : Type} (trace : List (Effect δ)) : List (List (IconEntry δ)) :=
  trace.filterMap fun
    | .workerCall input => some input
    | _ => none

/-- The events a worker call makes the output port deliver: those of the
returned handle, none when the call throws. -/
def emittedEvents {ε : Type} : Except JSError (WorkerHandle ε) → List ε
  | .ok handle => handle.ports.output.events
  | .error _ => []

/-- The number of times the output port was subscribed to. -/
def subscriptionsOf {δ : Type} (trace : List (Effect δ)) : Nat :=
  trace.countP fun
    | .subscribed => true
    | _ => false

/-! ## Concrete collaborators used in the scenarios -/

/-- The mapping `{"home": "<svg-home>", "star": "<svg-star>"}` on a fresh
object without prototype. -/
def homeStar : JSObject String :=
  JSObject.ofInsertions [] [("home", .defn "<svg-home>"), ("star", .defn "<svg-star>")]

/-- The mapping built by inserting `"10"`, then `"2"`, then `"home"`. -/
def tenTwoHome : JSObject String :=
  JSObject.ofInsertions []
    [("10", .defn "<svg-10>"), ("2", .defn "<svg-2>"), ("home", .defn "<svg-home>")]

/-- An object with an enumerable own property `"home"`, a non-enumerable own
property `"hidden"` and a symbol-keyed own property, whose prototype carries an
enumerable property `"inherited"`. -/
def mixedObject : JSObject String :=
  ⟨[⟨.str "home", .defn "<svg-home>", true⟩, ⟨.str "hidden", .defn "<svg-hidden>", false⟩,
    ⟨.sym 0, .defn "<svg-symbol>", true⟩],
   [[⟨.str "inherited", .defn "<svg-inherited>", true⟩]]⟩

/-- A worker that counts its calls in the module state and whose output port
delivers `built:` followed by the name, for each entry in order. -/
def builtWorker : Worker Nat String String := fun calls input =>
  (calls + 1, .ok ⟨⟨⟨input.map fun e => "built:" ++ e.1⟩⟩⟩)

/-- A worker that throws as soon as it is called. -/
def throwingWorker : Worker Nat String String := fun calls _ =>
  (calls + 1, .error ⟨"worker failed"⟩)

/-- A worker whose output port delivers nothing. -/
def silentWorker : Worker Nat String String := fun calls _ =>
  (calls + 1, .ok ⟨⟨⟨[]⟩⟩⟩)

/-! ## Facts about ordinary objects -/

theorem key_class_perm (ks : List PropertyKey) :
    (ks.filter PropertyKey.isIndex ++ ks.filter PropertyKey.isPlainString
      ++ ks.filter PropertyKey.isSymbol).Perm ks := by
  induction ks with
  | nil => simp
  | cons k ks ih =>
    cases k with
    | sym n =>
      simp only [List.filter, PropertyKey.isIndex, PropertyKey.index?, PropertyKey.isPlainString,
        PropertyKey.isSymbol, Option.isSome_none]
      exact List.perm_middle.trans (ih.cons _)
    | str s =>
      cases h : arrayIndex? s with
      | none =>
        simp only [List.filter, PropertyKey.isIndex, PropertyKey.index?, PropertyKey.isPlainString,
          PropertyKey.isSymbol, h, Option.isSome_none, Option.isNone_none]
        rw [List.append_assoc, List.cons_append, ← List.append_assoc] at *
        exact List.perm_middle.trans (List.Perm.cons _ (by simpa [List.append_assoc] using ih))
      | some i =>
        simp only [List.filter, PropertyKey.isIndex, PropertyKey.index?, PropertyKey.isPlainString,
          PropertyKey.isSymbol, h, Option.isSome_some, Option.isNone_some]
        exact ih.cons _

theorem ownPropertyKeys_perm {δ : Type} (o : JSObject δ) :
    (ownPropertyKeys o).Perm (o.own.map Property.key) := by
  unfold ownPropertyKeys
  exact (((List.perm_insertionSort indexLE _).append_right _).append_right _).trans
    (key_class_perm _)

theorem find_key_of_mem {δ : Type} :
    ∀ (ps : List (Property δ)) (p : Property δ), (ps.map Property.key).Nodup → p ∈ ps →
      ps.find? (fun q => q.key == p.key) = some p
  | [], _, _, hp => by cases hp
  | q :: ps, p, hnd, hp => by
    rw [List.map_cons, List.nodup_cons] at hnd
    rcases List.mem_cons.1 hp with rfl | hmem
    · simp
    · have hne : q.key ≠ p.key := fun h => hnd.1 (h ▸ List.mem_map_of_mem _ hmem)
      rw [List.find?_cons_of_neg _ (by simpa using hne)]
      exact find_key_of_mem ps p hnd.2 hmem

theorem getOwnProperty_of_mem {δ : Type} {o : JSObject δ} (hwf : o.WellFormed)
    {p : Property δ} (hp : p ∈ o.own) : getOwnProperty o p.key = some p :=
  find_key_of_mem o.own p hwf hp

theorem getOwnProperty_some {δ : Type} {o : JSObject δ} {k : PropertyKey} {p : Property δ}
    (h : getOwnProperty o k = some p) : p ∈ o.own ∧ p.key = k := by
  refine ⟨List.mem_of_find?_eq_some h, ?_⟩
  have := List.find?_some h
  simpa using this

theorem get_of_getOwnProperty {δ : Type} {o : JSObject δ} {k : PropertyKey} {p : Property δ}
    (h : getOwnProperty o k = some p) : o.get k = p.value := by
  unfold getOwnProperty at h
  simp [JSObject.get, lookupProperty, h]

theorem keys_eq_filterMap {δ : Type} (o : JSObject δ) :
    Object.keys o = (ownPropertyKeys o).filterMap fun k =>
      (getOwnProperty o k).bind fun p =>
        match k with
        | .str s => if p.enumerable then some s else none
        | .sym _ => none := by
  unfold Object.keys
  apply List.filterMap_congr
  intro k _
  cases k with
  | sym n => cases getOwnProperty o (.sym n) <;> rfl
  | str s => cases getOwnProperty o (.str s) <;> rfl

theorem keys_perm_ownEnumerableNames {δ : Type} {o : JSObject δ} (hwf : o.WellFormed) :
    (Object.keys o).Perm (ownEnumerableNames o) := by
  rw [keys_eq_filterMap]
  refine ((ownPropertyKeys_perm o).filterMap _).trans ?_
  rw [List.filterMap_map]
  unfold ownEnumerableNames
  apply List.Perm.of_eq
  apply List.filterMap_congr
  intro p hp
  simp only [Function.comp, getOwnProperty_of_mem hwf hp, Option.some_bind,
    Property.enumerableName?]

theorem mem_ownEnumerableNames {δ : Type} {o : JSObject δ} {s : String} :
    s ∈ ownEnumerableNames o ↔ ∃ p ∈ o.own, p.key = .str s ∧ p.enumerable = true := by
  unfold ownEnumerableNames
  rw [List.mem_filterMap]
  constructor
  · rintro ⟨p, hp, h⟩
    refine ⟨p, hp, ?_⟩
    unfold Property.enumerableName? at h
    cases hk : p.key with
    | sym n => simp [hk] at h
    | str t =>
      cases he : p.enumerable <;> simp [hk, he] at h
      exact ⟨by rw [h], rfl⟩
  · rintro ⟨p, hp, hk, he⟩
    exact ⟨p, hp, by simp [Property.enumerableName?, hk, he]⟩

theorem ownEnumerableNames_nodup {δ : Type} {o : JSObject δ} (hwf : o.WellFormed) :
    (ownEnumerableNames o).Nodup := by
  unfold ownEnumerableNames
  have hinj : ∀ (l : List (Property δ)), (l.map Property.key).Nodup →
      (l.filterMap Property.enumerableName?).Nodup := by
    intro l
    induction l with
    | nil => intro _; simp
    | cons p l ih =>
      intro hnd
      rw [List.map_cons, List.nodup_cons] at hnd
      rw [List.filterMap_cons]
      cases hn : p.enumerableName? with
      | none => exact ih hnd.2
      | some s =>
        refine List.nodup_cons.2 ⟨?_, ih hnd.2⟩
        intro hmem
        obtain ⟨q, hq, hqs⟩ := List.mem_filterMap.1 hmem
        apply hnd.1
        have hpk : p.key = .str s := by
          unfold Property.enumerableName? at hn
          cases hk : p.key with
          | sym n => simp [hk] at hn
          | str t => cases he : p.enumerable <;> simp [hk, he] at hn; rw [hn]
        have hqk : q.key = .str s := by
          unfold Property.enumerableName? at hqs
          cases hk : q.key with
          | sym n => simp [hk] at hqs
          | str t => cases he : q.enumerable <;> simp [hk, he] at hqs; rw [hqs]
        rw [hpk, ← hqk]
        exact List.mem_map_of_mem _ hq
  exact hinj o.own hwf

theorem keys_nodup {δ : Type} {o : JSObject δ} (hwf : o.WellFormed) :
    (Object.keys o).Nodup :=
  (keys_perm_ownEnumerableNames hwf).nodup_iff.2 (ownEnumerableNames_nodup hwf)

theorem mem_keys_iff {δ : Type} {o : JSObject δ} (hwf : o.WellFormed) {s : String} :
    s ∈ Object.keys o ↔ ∃ p ∈ o.own, p.key = .str s ∧ p.enumerable = true :=
  ((keys_perm_ownEnumerableNames hwf).mem_iff).trans mem_ownEnumerableNames

/-- A name enumerated by `Object.keys` has an enumerable own property, and
reading the name on the object yields that property's value. -/
theorem get_of_mem_keys {δ : Type} {o : JSObject δ} {s : String}
    (h : s ∈ Object.keys o) :
    ∃ p ∈ o.own, p.key = .str s ∧ p.enumerable = true ∧ o.get (.str s) = p.value := by
  unfold Object.keys at h
  obtain ⟨k, _, hk⟩ := List.mem_filterMap.1 h
  cases k with
  | sym n => simp at hk
  | str t =>
    cases hg : getOwnProperty o (.str t) with
    | none => simp [hg] at hk
    | some p =>
      cases he : p.enumerable with
      | false => simp [hg, he] at hk
      | true =>
        simp [hg, he] at hk
        subst hk
        exact ⟨p, (getOwnProperty_some hg).1, (getOwnProperty_some hg).2, he,
          get_of_getOwnProperty hg⟩

/-! ## Facts about the script -/

theorem subscribe_log {δ ε : Type} (format : ε → String) :
    ∀ (events : List ε) (t : List (Effect δ)),
      Port.subscribe ⟨events⟩ (fun x => console.log format x) t
        = t ++ Effect.subscribed :: events.map fun x => Effect.logged (format x) := by
  intro events t
  unfold Port.subscribe
  have hfold : ∀ (es : List ε) (u : List (Effect δ)),
      es.foldl (fun t x => console.log format x t) u
        = u ++ es.map fun x => Effect.logged (format x) := by
    intro es
    induction es with
    | nil => intro u; simp
    | cons e es ih =>
      intro u
      rw [List.foldl_cons, ih, console.log, List.map_cons, List.append_assoc]
      rfl
  rw [hfold]
  simp

theorem linesOf_append {δ : Type} (t u : List (Effect δ)) :
    linesOf (t ++ u) = linesOf t ++ linesOf u := by
  simp [linesOf, List.filterMap_append]

theorem linesOf_logged {δ ε : Type} (format : ε → String) (events : List ε) :
    linesOf (events.map fun x => (Effect.logged (format x) : Effect δ)) = events.map format := by
  induction events with
  | nil => rfl
  | cons e es ih =>
    simp only [List.map_cons, linesOf, List.filterMap_cons] at ih ⊢
    rw [ih]

theorem workerCallsOf_logged {δ ε : Type} (format : ε → String) (events : List ε) :
    workerCallsOf (events.map fun x => (Effect.logged (format x) : Effect δ)) = [] := by
  induction events with
  | nil => rfl
  | cons e es ih =>
    simp only [List.map_cons, workerCallsOf, List.filterMap_cons] at ih ⊢
    rw [ih]

/-- The run of the script once both modules are loaded, in closed form. -/
theorem build_loaded {σ δ ε : Type} (M : JSObject δ) (sb : SourceBuilder σ δ ε)
    (format : ε → String) (s : σ) :
    build (.ok ⟨M⟩) (.ok sb) format s =
      match sb.Headless.worker s (iconEntries M) with
      | (s', .error e) => ⟨.uncaught e, [.workerCall (iconEntries M)], s'⟩
      | (s', .ok handle) =>
        ⟨.completed,
         Effect.workerCall (iconEntries M) :: Effect.subscribed ::
           handle.ports.output.events.map (fun x => Effect.logged (format x)), s'⟩ := by
  simp only [build, iconEntries]
  generalize sb.Headless.worker s ((Object.keys M).map fun x => (x, M.get (.str x))) = r
  rcases r with ⟨s', e | handle⟩
  · rfl
  · show Run.mk _ (Port.subscribe _ _ _) _ = _
    rw [show handle.ports.output = ⟨handle.ports.output.events⟩ from rfl, subscribe_log]
    rfl

theorem build_lines {σ δ ε : Type} (M : JSObject δ) (sb : SourceBuilder σ δ ε)
    (format : ε → String) (s : σ) :
    linesOf (build (.ok ⟨M⟩) (.ok sb) format s).trace
      = (emittedEvents (sb.Headless.worker s (iconEntries M)).2).map format := by
  rw [build_loaded]
  rcases h : sb.Headless.worker s (iconEntries M) with ⟨s', r⟩
  cases r with
  | error e => rfl
  | ok handle =>
    show linesOf ([Effect.workerCall (iconEntries M), Effect.subscribed] ++ _) = _
    rw [linesOf_append, linesOf_logged]
    rfl

theorem build_calls {σ δ ε : Type} (M : JSObject δ) (sb : SourceBuilder σ δ ε)
    (format : ε → String) (s : σ) :
    workerCallsOf (build (.ok ⟨M⟩) (.ok sb) format s).trace = [iconEntries M] := by
  rw [build_loaded]
  rcases h : sb.Headless.worker s (iconEntries M) with ⟨s', r⟩
  cases r with
  | error e => rfl
  | ok handle =>
    show workerCallsOf ([Effect.workerCall (iconEntries M), Effect.subscribed] ++ _) = _
    simp only [workerCallsOf, List.filterMap_append]
    have := @workerCallsOf_logged δ ε format handle.ports.output.events
    simp only [workerCallsOf] at this
    rw [this]
    rfl

/-! ## Facts about the entry list -/

theorem names_iconEntries {δ : Type} (M : JSObject δ) :
    (iconEntries M).map Prod.fst = Object.keys M := by
  simp [iconEntries, List.map_map, Function.comp_def]

theorem keys_sublist_ownPropertyKeys {δ : Type} (M : JSObject δ) :
    ((Object.keys M).map PropertyKey.str).Sublist (ownPropertyKeys M) := by
  unfold Object.keys
  generalize ownPropertyKeys M = l
  induction l with
  | nil => exact List.Sublist.slnil
  | cons k l ih =>
    rw [List.filterMap_cons]
    cases k with
    | sym n => exact ih.cons _
    | str s =>
      cases getOwnProperty M (.str s) with
      | none => exact ih.cons _
      | some p =>
        cases he : p.enumerable with
        | false => simpa [he] using ih.cons _
        | true => simpa [he] using ih.cons₂ (PropertyKey.str s)

theorem length_filterMap_eq_countP {α β : Type} (f : α → Option β) (l : List α) :
    (l.filterMap f).length = l.countP fun a => (f a).isSome := by
  induction l with
  | nil => rfl
  | cons a l ih =>
    rw [List.filterMap_cons, List.countP_cons]
    cases h : f a <;> simp [ih]

theorem ownPropertyKeys_mapValues {δ γ : Type} (f : JSValue δ → JSValue γ) (M : JSObject δ) :
    ownPropertyKeys (M.mapValues f) = ownPropertyKeys M := by
  simp [ownPropertyKeys, JSObject.mapValues, List.map_map, Function.comp_def]

theorem getOwnProperty_mapValues {δ γ : Type} (f : JSValue δ → JSValue γ) (M : JSObject δ)
    (k : PropertyKey) :
    getOwnProperty (M.mapValues f) k
      = (getOwnProperty M k).map fun p => ⟨p.key, f p.value, p.enumerable⟩ := by
  unfold getOwnProperty JSObject.mapValues
  generalize M.own = l
  induction l with
  | nil => rfl
  | cons p l ih =>
    simp only [List.map_cons, List.find?_cons]
    cases p.key == k
    · exact ih
    · rfl

theorem keys_mapValues {δ γ : Type} (f : JSValue δ → JSValue γ) (M : JSObject δ) :
    Object.keys (M.mapValues f) = Object.keys M := by
  unfold Object.keys
  rw [ownPropertyKeys_mapValues]
  apply List.filterMap_congr
  intro k _
  cases k with
  | sym n => rfl
  | str s =>
    simp only [getOwnProperty_mapValues]
    cases getOwnProperty M (.str s) <;> rfl

/-! ## Facts about mappings built by insertion -/

theorem define_fresh {δ : Type} (o : JSObject δ) (name : String) (v : JSValue δ)
    (hfresh : ∀ p ∈ o.own, p.key ≠ .str name) :
    o.define name v = ⟨o.own ++ [⟨.str name, v, true⟩], o.protoChain⟩ := by
  unfold JSObject.define
  have hany : (o.own.any fun p => p.key == .str name) = false := by
    rw [List.any_eq_false]
    intro p hp
    simpa using hfresh p hp
  rw [hany]
  rfl

theorem foldl_define {δ : Type} :
    ∀ (kvs : List (String × JSValue δ)) (o : JSObject δ),
      (∀ kv ∈ kvs, ∀ p ∈ o.own, p.key ≠ .str kv.1) → (kvs.map Prod.fst).Nodup →
      kvs.foldl (fun o kv => o.define kv.1 kv.2) o
        = ⟨o.own ++ kvs.map (fun kv => ⟨.str kv.1, kv.2, true⟩), o.protoChain⟩
  | [], o, _, _ => by simp
  | kv :: kvs, o, hfresh, hnd => by
    rw [List.map_cons, List.nodup_cons] at hnd
    rw [List.foldl_cons, define_fresh o kv.1 kv.2 (hfresh kv (List.mem_cons_self _ _)),
      foldl_define kvs _ _ hnd.2]
    · simp
    · intro kv' hkv' p hp
      rcases List.mem_append.1 hp with hp | hp
      · exact hfresh kv' (List.mem_cons_of_mem _ hkv') p hp
      · rw [List.mem_singleton] at hp
        subst hp
        intro h
        apply hnd.1
        have : kv.1 = kv'.1 := by simpa using h
        rw [this]
        exact List.mem_map_of_mem _ hkv'

theorem ofInsertions_own {δ : Type} (protoChain : List (List (Property δ)))
    (kvs : List (String × JSValue δ)) (hnd : (kvs.map Prod.fst).Nodup) :
    JSObject.ofInsertions protoChain kvs
      = ⟨kvs.map (fun kv => ⟨.str kv.1, kv.2, true⟩), protoChain⟩ := by
  unfold JSObject.ofInsertions
  rw [foldl_define kvs _ (fun _ _ p hp => by cases hp) hnd]
  simp

theorem ofInsertions_wellFormed {δ : Type} (protoChain : List (List (Property δ)))
    (kvs : List (String × JSValue δ)) (hnd : (kvs.map Prod.fst).Nodup) :
    (JSObject.ofInsertions protoChain kvs).WellFormed := by
  rw [ofInsertions_own protoChain kvs hnd]
  unfold JSObject.WellFormed
  simp only [List.map_map]
  have : (Property.key ∘ fun kv : String × JSValue δ => (⟨.str kv.1, kv.2, true⟩ : Property δ))
      = PropertyKey.str ∘ Prod.fst := rfl
  rw [this, ← List.map_map]
  exact hnd.map (fun a b h => by cases h; rfl)

theorem ownPropertyKeys_ofInsertions {δ : Type} (protoChain : List (List (Property δ)))
    (kvs : List (String × JSValue δ)) (hnd : (kvs.map Prod.fst).Nodup) :
    ownPropertyKeys (JSObject.ofInsertions protoChain kvs)
      = (enumerationOrder (kvs.map Prod.fst)).map PropertyKey.str := by
  rw [ofInsertions_own protoChain kvs hnd]
  unfold ownPropertyKeys enumerationOrder
  simp only [List.map_map]
  have hkeys : (Property.key ∘ fun kv : String × JSValue δ =>
      (⟨.str kv.1, kv.2, true⟩ : Property δ)) = PropertyKey.str ∘ Prod.fst := rfl
  rw [hkeys, ← List.map_map]
  generalize kvs.map Prod.fst = names
  rw [List.filter_map, List.filter_map, List.filter_map]
  have h1 : (PropertyKey.isIndex ∘ PropertyKey.str) = fun n => (arrayIndex? n).isSome := rfl
  have h2 : (PropertyKey.isPlainString ∘ PropertyKey.str) = fun n => (arrayIndex? n).isNone :=
    rfl
  have h3 : (PropertyKey.isSymbol ∘ PropertyKey.str) = fun _ => false := rfl
  rw [h1, h2, h3, List.filter_false, List.map_nil, List.append_nil, List.map_append,
    List.map_insertionSort nameIndexLE indexLE PropertyKey.str _ (fun _ _ _ _ => Iff.rfl)]

theorem keys_ofInsertions {δ : Type} (protoChain : List (List (Property δ)))
    (kvs : List (String × JSValue δ)) (hnd : (kvs.map Prod.fst).Nodup) :
    Object.keys (JSObject.ofInsertions protoChain kvs) = enumerationOrder (kvs.map Prod.fst) := by
  have hwf := ofInsertions_wellFormed protoChain kvs hnd
  have hown := ofInsertions_own protoChain kvs hnd
  unfold Object.keys
  rw [ownPropertyKeys_ofInsertions protoChain kvs hnd, List.filterMap_map]
  refine (List.filterMap_congr ?_).trans (List.filterMap_some _)
  intro n hn
  have hn' : n ∈ kvs.map Prod.fst := by
    unfold enumerationOrder at hn
    rcases List.mem_append.1 hn with h | h
    · exact (List.mem_filter.1 ((List.mem_insertionSort _).1 h)).1
    · exact (List.mem_filter.1 h).1
  obtain ⟨kv, hkv, rfl⟩ := List.mem_map.1 hn'
  have hp : (⟨.str kv.1, kv.2, true⟩ : Property δ) ∈ (JSObject.ofInsertions protoChain kvs).own := by
    rw [hown]
    exact List.mem_map_of_mem _ hkv
  have hg := getOwnProperty_of_mem hwf hp
  simp only [Function.comp]
  rw [hg]
  rfl

/-! ## The output subscription and the sink -/

/-- C2: when the output port delivers the events `e_1..e_k` to the listener the
script subscribes, `console.log` is called exactly `k` times after what was
written before, and the `i`-th line written is the text of `e_i`: one write per
event, in delivery order, none dropped, duplicated, reordered or changed. -/
theorem C2_one_line_per_event {δ ε : Type} (format : ε → String) (events : List ε)
    (before : List (Effect δ)) :
    linesOf (Port.subscribe ⟨events⟩ (fun x => console.log format x) before)
        = linesOf before ++ events.map format
      ∧ (linesOf (Port.subscribe ⟨events⟩ (fun x => console.log format x) before)).length
        = (linesOf before).length + events.length
      ∧ ∀ (i : Nat) (h : i < events.length),
        (linesOf (Port.subscribe ⟨events⟩ (fun x => console.log format x) before))[
          (linesOf before).length + i]? = some (format events[i]) := by
  have hlines : linesOf (Port.subscribe ⟨events⟩ (fun x => console.log format x) before)
      = linesOf before ++ events.map format := by
    rw [subscribe_log, linesOf_append]
    show linesOf before ++ linesOf ([Effect.subscribed] ++ _) = _
    rw [linesOf_append, linesOf_logged]
    rfl
  refine ⟨hlines, ?_, ?_⟩
  · rw [hlines, List.length_append, List.length_map]
  · intro i h
    rw [hlines, List.getElem?_append_right (Nat.le_add_right _ _), Nat.add_sub_cancel_left,
      List.getElem?_map, List.getElem?_eq_getElem h]
    rfl

/-! ## The whole script -/

/-- C4: end to end, the lines the script prints are the texts of the events the
worker's output port emits when the worker is called on the entry list of the
mapping, in emission order; for `{"home": "<svg-home>", "star": "<svg-star>"}`
the worker receives `[("home","<svg-home>"), ("star","<svg-star>")]`, and a port
emitting `built:home` then `built:star` makes the script print exactly these two
lines. -/
theorem C4_end_to_end :
    (∀ (σ δ ε : Type) (M : JSObject δ) (sb : SourceBuilder σ δ ε) (format : ε → String) (s : σ),
        linesOf (build (.ok ⟨M⟩) (.ok sb) format s).trace
          = (emittedEvents (sb.Headless.worker s (iconEntries M)).2).map format)
      ∧ iconEntries homeStar = [("home", .defn "<svg-home>"), ("star", .defn "<svg-star>")]
      ∧ (∀ (σ : Type) (W : Worker σ String String) (s : σ),
          workerCallsOf (build (.ok ⟨homeStar⟩) (.ok ⟨⟨W⟩⟩) (fun x => x) s).trace
            = [[("home", .defn "<svg-home>"), ("star", .defn "<svg-star>")]])
      ∧ (∀ (σ : Type) (W : Worker σ String String) (s : σ),
          emittedEvents (W s [("home", .defn "<svg-home>"), ("star", .defn "<svg-star>")]).2
              = ["built:home", "built:star"] →
            linesOf (build (.ok ⟨homeStar⟩) (.ok ⟨⟨W⟩⟩) (fun x => x) s).trace
              = ["built:home", "built:star"])
      ∧ linesOf (build (.ok ⟨homeStar⟩) (.ok ⟨⟨builtWorker⟩⟩) (fun x => x) 0).trace
          = ["built:home", "built:star"] := by
  have hentries : iconEntries homeStar
      = [("home", .defn "<svg-home>"), ("star", .defn "<svg-star>")] := by decide
  refine ⟨fun σ δ ε M sb format s => build_lines M sb format s, hentries, ?_, ?_, ?_⟩
  · intro σ W s
    rw [build_calls, hentries]
  · intro σ W s h
    rw [build_lines, hentries]
    show (emittedEvents (W s _).2).map _ = _
    rw [h]
    rfl
  · decide

/-- C5: when `Headless.worker` throws on being called, the script ends with that
error uncaught, having written no line: the call is the only effect, the output
port is never subscribed to and `console.log` is never called. -/
theorem C5_worker_throw_propagates {σ δ ε : Type} (M : JSObject δ) (sb : SourceBuilder σ δ ε)
    (format : ε → String) (s : σ) (e : JSError)
    (hthrow : (sb.Headless.worker s (iconEntries M)).2 = .error e) :
    (build (.ok ⟨M⟩) (.ok sb) format s).outcome = .uncaught e
      ∧ (build (.ok ⟨M⟩) (.ok sb) format s).trace = [.workerCall (iconEntries M)]
      ∧ linesOf (build (.ok ⟨M⟩) (.ok sb) format s).trace = []
      ∧ subscriptionsOf (build (.ok ⟨M⟩) (.ok sb) format s).trace = 0 := by
  rw [build_loaded]
  rcases hw : sb.Headless.worker s (iconEntries M) with ⟨s', r⟩
  rw [hw] at hthrow
  cases r with
  | ok handle => cases hthrow
  | error e' =>
    cases hthrow
    exact ⟨rfl, rfl, rfl, rfl⟩

theorem C5_worker_throw_propagates_witness :
    (throwingWorker 0 (iconEntries homeStar)).2 = .error ⟨"worker failed"⟩
      ∧ (build (.ok ⟨homeStar⟩) (.ok ⟨⟨throwingWorker⟩⟩) (fun x => x) 0).outcome
          = .uncaught ⟨"worker failed"⟩
      ∧ (build (.ok ⟨homeStar⟩) (.ok ⟨⟨throwingWorker⟩⟩) (fun x => x) 0).trace
          = [.workerCall (iconEntries homeStar)]
      ∧ linesOf (build (.ok ⟨homeStar⟩) (.ok ⟨⟨throwingWorker⟩⟩) (fun x => x) 0).trace = []
      ∧ subscriptionsOf (build (.ok ⟨homeStar⟩) (.ok ⟨⟨throwingWorker⟩⟩) (fun x => x) 0).trace
          = 0 :=
  ⟨rfl, C5_worker_throw_propagates homeStar ⟨⟨throwingWorker⟩⟩ (fun x => x) 0
    ⟨"worker failed"⟩ rfl⟩

/-- C6: for the empty mapping (no own property, whatever its prototype chain)
`Headless.worker` is still called, once, with the empty sequence; the lines
written are the texts of whatever the worker's port emits on that input, so
none when it emits no event. -/
theorem C6_empty_mapping {σ δ ε : Type} (protoChain : List (List (Property δ)))
    (sb : SourceBuilder σ δ ε) (format : ε → String) (s : σ) :
    workerCallsOf (build (.ok ⟨⟨[], protoChain⟩⟩) (.ok sb) format s).trace = [[]]
      ∧ linesOf (build (.ok ⟨⟨[], protoChain⟩⟩) (.ok sb) format s).trace
          = (emittedEvents (sb.Headless.worker s []).2).map format
      ∧ (emittedEvents (sb.Headless.worker s []).2 = [] →
          linesOf (build (.ok ⟨⟨[], protoChain⟩⟩) (.ok sb) format s).trace = []) := by
  have hentries : iconEntries (⟨[], protoChain⟩ : JSObject δ) = [] := rfl
  have hlines := build_lines ⟨[], protoChain⟩ sb format s
  rw [hentries] at hlines
  refine ⟨?_, hlines, ?_⟩
  · rw [build_calls, hentries]
  · intro h
    rw [hlines, h]
    rfl

theorem C6_empty_mapping_witness :
    workerCallsOf (build (.ok ⟨⟨[], [[⟨.str "inherited", .defn "x", true⟩]]⟩⟩)
        (.ok ⟨⟨silentWorker⟩⟩) (fun x => x) 0).trace = [[]]
      ∧ linesOf (build (.ok ⟨⟨[], [[⟨.str "inherited", .defn "x", true⟩]]⟩⟩)
        (.ok ⟨⟨silentWorker⟩⟩) (fun x => x) 0).trace = [] :=
  ⟨(C6_empty_mapping [[⟨.str "inherited", .defn "x", true⟩]] ⟨⟨silentWorker⟩⟩
      (fun x => x) 0).1,
   (C6_empty_mapping [[⟨.str "inherited", .defn "x", true⟩]] ⟨⟨silentWorker⟩⟩
      (fun x => x) 0).2.2 rfl⟩

/-- C7: with a worker whose emitted events depend only on its input, not on the
state the source-builder module is in, two runs of the script on the same
metadata source print the same lines, whatever state each run starts in; in
particular a second run started in the state the first one left. -/
theorem C7_runs_print_the_same {σ δ ε : Type} (requireFeather : Except JSError (Feather δ))
    (sb : SourceBuilder σ δ ε) (format : ε → String) (s₁ s₂ : σ)
    (hpure : ∀ (t₁ t₂ : σ) (input : List (IconEntry δ)),
      emittedEvents (sb.Headless.worker t₁ input).2
        = emittedEvents (sb.Headless.worker t₂ input).2) :
    linesOf (build requireFeather (.ok sb) format s₁).trace
      = linesOf (build requireFeather (.ok sb) format s₂).trace := by
  cases requireFeather with
  | error e => rfl
  | ok feather =>
    cases feather with
    | mk M => rw [build_lines, build_lines, hpure s₁ s₂]

theorem C7_runs_print_the_same_witness :
    (∀ (t₁ t₂ : Nat) (input : List (IconEntry String)),
        emittedEvents (builtWorker t₁ input).2 = emittedEvents (builtWorker t₂ input).2)
      ∧ (build (.ok ⟨homeStar⟩) (.ok ⟨⟨builtWorker⟩⟩) (fun x => x) 0).workerState = 1
      ∧ linesOf (build (.ok ⟨homeStar⟩) (.ok ⟨⟨builtWorker⟩⟩) (fun x => x) 0).trace
          = linesOf (build (.ok ⟨homeStar⟩) (.ok ⟨⟨builtWorker⟩⟩) (fun x => x) 1).trace :=
  ⟨fun _ _ _ => rfl, by decide,
   C7_runs_print_the_same (.ok ⟨homeStar⟩) ⟨⟨builtWorker⟩⟩ (fun x => x) 0 1
    (fun _ _ _ => rfl)⟩

/-- C9: once both modules are loaded, `Headless.worker` is called exactly once
and the argument of that call is the whole entry list of the mapping; and in no
run at all, whatever the two `require` calls yield, is it called more than
once. -/
theorem C9_single_worker_call {σ δ ε : Type} (M : JSObject δ) (sb : SourceBuilder σ δ ε)
    (format : ε → String) (s : σ) :
    workerCallsOf (build (.ok ⟨M⟩) (.ok sb) format s).trace = [iconEntries M]
      ∧ ∀ (requireFeather : Except JSError (Feather δ))
          (requireSourceBuilder : Except JSError (SourceBuilder σ δ ε)),
          (workerCallsOf (build requireFeather requireSourceBuilder format s).trace).length
            ≤ 1 := by
  refine ⟨build_calls M sb format s, ?_⟩
  intro rf rsb
  cases rf with
  | error e => simp [build, workerCallsOf]
  | ok feather =>
    cases rsb with
    | error e => simp [build, workerCallsOf]
    | ok sb' =>
      cases feather with
      | mk M' => rw [build_calls]; simp

/-! ## The entry enumerator -/

/-- C1: for every icon mapping `M` whose own enumerable string keys are `N` in
number, the argument passed to `Headless.worker` is the entry list of `M`: it
has exactly `N` entries, its names are the keys of `M` each exactly once
(nothing filtered out, nothing duplicated) in the order in which `M` lists its
own keys (nothing reordered), and each entry pairs a name with the value `M`
stores under it, which is what `M[name]` reads. -/
theorem C1_worker_receives_every_entry {σ δ ε : Type} (M : JSObject δ) (hwf : M.WellFormed)
    (sb : SourceBuilder σ δ ε) (format : ε → String) (s : σ) :
    workerCallsOf (build (.ok ⟨M⟩) (.ok sb) format s).trace = [iconEntries M]
      ∧ (iconEntries M).length = (ownEnumerableNames M).length
      ∧ ((∀ p ∈ M.own, p.enumerableName?.isSome = true) →
          (iconEntries M).length = M.own.length)
      ∧ ((iconEntries M).map Prod.fst).Perm (ownEnumerableNames M)
      ∧ ((iconEntries M).map Prod.fst).Nodup
      ∧ (∀ k ∈ ownEnumerableNames M, ((iconEntries M).map Prod.fst).count k = 1)
      ∧ (((iconEntries M).map Prod.fst).map PropertyKey.str).Sublist (ownPropertyKeys M)
      ∧ (∀ (i : Nat) (h : i < (iconEntries M).length),
          (Object.keys M)[i]? = some (iconEntries M)[i].1
            ∧ (iconEntries M)[i].2 = M.get (.str (iconEntries M)[i].1)
            ∧ ∃ p ∈ M.own, p.key = .str (iconEntries M)[i].1 ∧ p.enumerable = true
                ∧ (iconEntries M)[i].2 = p.value) := by
  have hperm := keys_perm_ownEnumerableNames hwf
  have hlen : (iconEntries M).length = (ownEnumerableNames M).length := by
    rw [← List.length_map (iconEntries M) Prod.fst, names_iconEntries]
    exact hperm.length_eq
  refine ⟨build_calls M sb format s, hlen, ?_, ?_, ?_, ?_, ?_, ?_⟩
  · intro hall
    rw [hlen, ownEnumerableNames, length_filterMap_eq_countP, List.countP_eq_length.2 hall]
  · rw [names_iconEntries]; exact hperm
  · rw [names_iconEntries]; exact keys_nodup hwf
  · intro k hk
    rw [names_iconEntries]
    exact List.count_eq_one_of_mem (keys_nodup hwf) (hperm.mem_iff.2 hk)
  · rw [names_iconEntries]; exact keys_sublist_ownPropertyKeys M
  · intro i h
    have hi : i < (Object.keys M).length := by
      simpa [iconEntries] using h
    have hget : (iconEntries M)[i] = ((Object.keys M)[i], M.get (.str (Object.keys M)[i])) := by
      simp [iconEntries]
    rw [hget]
    refine ⟨List.getElem?_eq_getElem hi, rfl, ?_⟩
    obtain ⟨p, hp, hk, he, hv⟩ := get_of_mem_keys (List.getElem_mem hi)
    exact ⟨p, hp, hk, he, hv⟩

theorem C1_worker_receives_every_entry_witness :
    homeStar.WellFormed
      ∧ workerCallsOf (build (.ok ⟨homeStar⟩) (.ok ⟨⟨builtWorker⟩⟩) (fun x => x) 0).trace
          = [[("home", .defn "<svg-home>"), ("star", .defn "<svg-star>")]]
      ∧ (iconEntries homeStar).length = 2 := by
  have hwf : homeStar.WellFormed := by decide
  have h := C1_worker_receives_every_entry homeStar hwf ⟨⟨builtWorker⟩⟩ (fun x => x) 0
  exact ⟨hwf, h.1.trans (by decide), h.2.1.trans (by decide)⟩

/-- C8: icon definitions are only forwarded.  For every mapping `M` and every
function `f` on the stored values, the entry list of `M` with every stored value
`v` replaced by `f v` is the entry list of `M` with `f` applied to the second
component of each entry; so the number, names and order of the entries do not
depend on the definitions, and the second component of each entry is exactly
the value stored in `M` under the entry's name. -/
theorem C8_definitions_only_forwarded {δ γ : Type} (M : JSObject δ)
    (f : JSValue δ → JSValue γ) :
    iconEntries (M.mapValues f) = (iconEntries M).map (fun e => (e.1, f e.2))
      ∧ (iconEntries (M.mapValues f)).map Prod.fst = (iconEntries M).map Prod.fst
      ∧ (iconEntries (M.mapValues f)).length = (iconEntries M).length
      ∧ ∀ e ∈ iconEntries M, ∃ p ∈ M.own, p.key = .str e.1 ∧ e.2 = p.value := by
  have hmap : iconEntries (M.mapValues f) = (iconEntries M).map (fun e => (e.1, f e.2)) := by
    unfold iconEntries
    rw [keys_mapValues, List.map_map]
    apply List.map_congr_left
    intro x hx
    unfold Object.keys at hx
    obtain ⟨k, _, hk⟩ := List.mem_filterMap.1 hx
    cases k with
    | sym n => simp at hk
    | str t =>
      cases hg : getOwnProperty M (.str t) with
      | none => simp [hg] at hk
      | some p =>
        cases he : p.enumerable with
        | false => simp [hg, he] at hk
        | true =>
          simp [hg, he] at hk
          subst hk
          have hg' : getOwnProperty (M.mapValues f) (.str t)
              = some ⟨p.key, f p.value, p.enumerable⟩ := by
            rw [getOwnProperty_mapValues, hg]; rfl
          simp only [Function.comp]
          rw [get_of_getOwnProperty hg, get_of_getOwnProperty hg']
  refine ⟨hmap, ?_, ?_, ?_⟩
  · rw [names_iconEntries, names_iconEntries, keys_mapValues]
  · rw [hmap, List.length_map]
  · intro e he
    unfold iconEntries at he
    obtain ⟨x, hx, rfl⟩ := List.mem_map.1 he
    obtain ⟨p, hp, hk, _, hv⟩ := get_of_mem_keys hx
    exact ⟨p, hp, hk, hv⟩

/-- C10: the entry names are exactly the own enumerable string keys of the
mapping object.  A name has an entry exactly when the object has an own
enumerable property with that string key, and then exactly one; the number of
entries is the number of own properties that are string-keyed and enumerable,
so a symbol-keyed or non-enumerable own property adds none; a name found only
on the prototype chain has no entry, nor has the key of a non-enumerable own
property; and the definition of each entry is what reading its name on the same
object yields. -/
theorem C10_own_enumerable_string_keys {δ : Type} (M : JSObject δ) (hwf : M.WellFormed) :
    (∀ s : String, s ∈ (iconEntries M).map Prod.fst ↔
        ∃ p ∈ M.own, p.key = .str s ∧ p.enumerable = true)
      ∧ ((iconEntries M).map Prod.fst).Nodup
      ∧ (iconEntries M).length = M.own.countP (fun p => p.enumerableName?.isSome)
      ∧ (∀ s : String, (∀ p ∈ M.own, p.key ≠ .str s) → s ∉ (iconEntries M).map Prod.fst)
      ∧ (∀ p ∈ M.own, p.enumerable = false →
          ∀ s : String, p.key = .str s → s ∉ (iconEntries M).map Prod.fst)
      ∧ (∀ p ∈ M.own, ∀ n : Nat, p.key = .sym n → p.enumerableName? = none)
      ∧ (∀ e ∈ iconEntries M, e.2 = M.get (.str e.1)) := by
  have hiff : ∀ s : String, s ∈ (iconEntries M).map Prod.fst ↔
      ∃ p ∈ M.own, p.key = .str s ∧ p.enumerable = true := by
    intro s
    rw [names_iconEntries]
    exact mem_keys_iff hwf
  refine ⟨hiff, ?_, ?_, ?_, ?_, ?_, ?_⟩
  · rw [names_iconEntries]; exact keys_nodup hwf
  · rw [← List.length_map (iconEntries M) Prod.fst, names_iconEntries,
      (keys_perm_ownEnumerableNames hwf).length_eq, ownEnumerableNames,
      length_filterMap_eq_countP]
  · intro s hnone hs
    obtain ⟨p, hp, hk, _⟩ := (hiff s).1 hs
    exact hnone p hp hk
  · intro p hp hne s hk hs
    obtain ⟨q, hq, hqk, hqe⟩ := (hiff s).1 hs
    have hq' := getOwnProperty_of_mem hwf hq
    have hp' := getOwnProperty_of_mem hwf hp
    rw [hqk] at hq'
    rw [hk, hq'] at hp'
    cases hp'
    rw [hne] at hqe
    cases hqe
  · intro p _ n hk
    simp [Property.enumerableName?, hk]
  · intro e he
    unfold iconEntries at he
    obtain ⟨x, _, rfl⟩ := List.mem_map.1 he
    rfl

theorem C10_own_enumerable_string_keys_witness :
    mixedObject.WellFormed
      ∧ iconEntries mixedObject = [("home", .defn "<svg-home>")]
      ∧ "inherited" ∉ (iconEntries mixedObject).map Prod.fst
      ∧ "hidden" ∉ (iconEntries mixedObject).map Prod.fst := by
  have hwf : mixedObject.WellFormed := by decide
  have h := C10_own_enumerable_string_keys mixedObject hwf
  refine ⟨hwf, by decide, h.2.2.2.1 "inherited" (by decide), ?_⟩
  exact h.2.2.2.2.1 ⟨.str "hidden", .defn "<svg-hidden>", false⟩ (by decide) rfl "hidden" rfl

/-! ## The order of enumeration -/

/-- C3, as stated, fails: for the mapping built by inserting the pairwise
distinct names `"10"`, `"2"`, `"home"` in that order, the worker receives the
names in the order `"2"`, `"10"`, `"home"`, not in insertion order. -/
theorem C3_insertion_order_counterexample :
    (["10", "2", "home"] : List String).Nodup
      ∧ workerCallsOf (build (.ok ⟨tenTwoHome⟩) (.ok ⟨⟨builtWorker⟩⟩) (fun x => x) 0).trace
          = [[("2", .defn "<svg-2>"), ("10", .defn "<svg-10>"), ("home", .defn "<svg-home>")]]
      ∧ (iconEntries tenTwoHome).map Prod.fst ≠ ["10", "2", "home"] := by
  decide

/-- C3, amended: for every mapping built by inserting pairwise distinct names
in some order, the names of the entries passed to `Headless.worker` are the
inserted names that denote array indices, in ascending numeric order, followed
by the other inserted names in insertion order; so when no inserted name
denotes an array index, the names are passed in exactly insertion order. -/
theorem C3_enumeration_order {σ δ ε : Type} (protoChain : List (List (Property δ)))
    (kvs : List (String × JSValue δ)) (hdistinct : (kvs.map Prod.fst).Nodup)
    (sb : SourceBuilder σ δ ε) (format : ε → String) (s : σ) :
    (workerCallsOf (build (.ok ⟨JSObject.ofInsertions protoChain kvs⟩) (.ok sb) format s).trace).map
        (fun input => input.map Prod.fst) = [enumerationOrder (kvs.map Prod.fst)]
      ∧ ((∀ n ∈ kvs.map Prod.fst, arrayIndex? n = none) →
          (workerCallsOf
              (build (.ok ⟨JSObject.ofInsertions protoChain kvs⟩) (.ok sb) format s).trace).map
            (fun input => input.map Prod.fst) = [kvs.map Prod.fst]) := by
  have hnames : (workerCallsOf
      (build (.ok ⟨JSObject.ofInsertions protoChain kvs⟩) (.ok sb) format s).trace).map
        (fun input => input.map Prod.fst) = [enumerationOrder (kvs.map Prod.fst)] := by
    rw [build_calls, List.map_singleton, names_iconEntries,
      keys_ofInsertions protoChain kvs hdistinct]
  refine ⟨hnames, ?_⟩
  intro hplain
  rw [hnames]
  unfold enumerationOrder
  have hnone : (kvs.map Prod.fst).filter (fun n => (arrayIndex? n).isSome) = [] := by
    rw [List.filter_eq_nil_iff]
    intro n hn
    simp [hplain n hn]
  have hall : (kvs.map Prod.fst).filter (fun n => (arrayIndex? n).isNone) = kvs.map Prod.fst := by
    rw [List.filter_eq_self]
    intro n hn
    simp [hplain n hn]
  rw [hnone, hall]
  rfl

theorem C3_enumeration_order_witness :
    (["10", "2", "home"] : List String).Nodup
      ∧ (workerCallsOf (build (.ok ⟨tenTwoHome⟩) (.ok ⟨⟨builtWorker⟩⟩) (fun x => x) 0).trace).map
          (fun input => input.map Prod.fst) = [["2", "10", "home"]]
      ∧ (workerCallsOf (build (.ok ⟨homeStar⟩) (.ok ⟨⟨builtWorker⟩⟩) (fun x => x) 0).trace).map
          (fun input => input.map Prod.fst) = [["home", "star"]] :=
  ⟨by decide,
   (C3_enumeration_order []
      [("10", .defn "<svg-10>"), ("2", .defn "<svg-2>"), ("home", .defn "<svg-home>")]
      (by decide) ⟨⟨builtWorker⟩⟩ (fun x => x) 0).1.trans (by decide),
   (C3_enumeration_order [] [("home", .defn "<svg-home>"), ("star", .defn "<svg-star>")]
      (by decide) ⟨⟨builtWorker⟩⟩ (fun x => x) 0).2 (by decide)⟩

end ElmFeatherIcon
